import Mathlib

/-!
# Chronos snapshot store: a shallow embedding of `src/chronos/storage.rs`

The Rust code under verification is `ChronosStore` (SentinelGit's temporal
snapshot store).  Strings are modelled as `List Char` (the keys produced by
`format!` are ASCII-safe concatenations, so character lists model the byte
strings sled compares), byte payloads as `List Nat`, and the sled database as
an association list ordered by byte-wise key comparison, with insert-or-replace
semantics (`sled::Db` is a sorted map; `apply_batch` applies all inserts
atomically, which the model realises as a pure fold).

External collaborators are modelled by their documented contracts:
* `zstdEncode` / `zstdDecode` model `zstd::encode_all` / `zstd::decode_all`
  as a concrete invertible, fallible codec (length-prefixed payload);
* the wall clock (`chrono::Utc::now().timestamp_millis()`) becomes an explicit
  `Int` argument to `save_snapshot`;
* `i64` decimal formatting (`format!("{}")`) and parsing (`str::parse::<i64>`)
  are modelled by `decRep` / `parse_i64` below (sign plus decimal digits; the
  64-bit range bound is not modelled, as no key in scope approaches it);
* the Rust `HashSet` used in `get_checkpoint_state` is modelled as list
  deduplication (its iteration order is unspecified in Rust, so every theorem
  below is stated up to membership, never up to the order of that iteration);
* `Vec::sort_by`, a stable sort, is modelled by `List.insertionSort`, which is
  also stable, hence extensionally the same function on every input.
-/

/-! ## Characters, decimal rendering and parsing -/

/-- Byte-wise (lexicographic) strict comparison of character lists, the order
in which sled stores keys (all characters in scope are ASCII, so character
order and UTF-8 byte order agree). -/
def lexLtB : List Char → List Char → Bool
  | [], [] => false
  | [], _ :: _ => true
  | _ :: _, [] => false
  | a :: as, b :: bs =>
    if a.toNat < b.toNat then true
    else if b.toNat < a.toNat then false
    else lexLtB as bs

/-- The character for a decimal digit `d < 10`. -/
def digitChar (d : Nat) : Char :=
  Char.ofNat (48 + d)

/-- ASCII decimal digit test, as in Rust's integer parsing. -/
def isDigitChar (c : Char) : Prop :=
  48 ≤ c.toNat ∧ c.toNat ≤ 57

instance (c : Char) : Decidable (isDigitChar c) :=
  inferInstanceAs (Decidable (_ ∧ _))

/-- Numeric value of a decimal digit character. -/
def digitVal (c : Char) : Nat :=
  c.toNat - 48

/-- Little-endian digit emission for `format!("{}", n)`: least significant
digit first; `fuel ≥ n` suffices since a number has no more digits than its
value.  Structural recursion on the fuel keeps the definition
kernel-reducible. -/
def toDigitsRev (fuel n : Nat) : List Char :=
  match fuel with
  | 0 => []
  | f + 1 => if n = 0 then [] else digitChar (n % 10) :: toDigitsRev f (n / 10)

/-- Minimal decimal rendering of a natural number, as `format!("{}")` prints
it. -/
def natChars (n : Nat) : List Char :=
  if n = 0 then ['0'] else (toDigitsRev n n).reverse

/-- Decimal rendering of an `i64`, as `format!("{}", timestamp)` produces it
inside the keys. -/
def decRep (t : Int) : List Char :=
  if t < 0 then '-' :: natChars (-t).toNat else natChars t.toNat

/-- Accumulating decimal parse of a digit run; `none` as soon as a non-digit
appears, mirroring `str::parse::<i64>` rejecting any stray character. -/
def parseDigsAux (acc : Nat) : List Char → Option Nat
  | [] => some acc
  | c :: cs =>
    if isDigitChar c then parseDigsAux (acc * 10 + digitVal c) cs else none

/-- Parse a non-empty all-digit run (`str::parse` rejects the empty string). -/
def parseDigs : List Char → Option Nat
  | [] => none
  | c :: cs => parseDigsAux 0 (c :: cs)

/-- Model of `str::parse::<i64>`: optional sign, then one or more decimal
digits, nothing else.  (The 64-bit overflow bound is not modelled.) -/
def parse_i64 (l : List Char) : Option Int :=
  match l with
  | [] => none
  | c :: cs =>
    if c = '-' then (parseDigs cs).map (fun n => -(n : Int))
    else if c = '+' then (parseDigs cs).map (fun n => (n : Int))
    else (parseDigs (c :: cs)).map (fun n => (n : Int))

/-- The field after the last `':'`, as `key_str.rsplit(':').next()` extracts
it in `get_history` (`rsplit` always yields at least one field: the whole
string when no separator occurs). -/
def lastField (l : List Char) : List Char :=
  (l.reverse.takeWhile (fun c => c != ':')).reverse

/-- Split at the first `':'`, if any: the pieces before and after it. -/
def splitOnce : List Char → Option (List Char × List Char)
  | [] => none
  | c :: cs =>
    if c = ':' then some ([], cs)
    else (splitOnce cs).map (fun pr => (c :: pr.1, pr.2))

/-- Model of `key_str.splitn(3, ':')` collected into a `Vec`: at most two
splits, the tail keeps its remaining separators. -/
def splitn3 (l : List Char) : List (List Char) :=
  match splitOnce l with
  | none => [l]
  | some (a, r1) =>
    match splitOnce r1 with
    | none => [a, r1]
    | some (b, r2) => [a, b, r2]

/-- A character list without the key separator. -/
def colonFree (l : List Char) : Prop :=
  ∀ c ∈ l, c ≠ ':'

instance (l : List Char) : Decidable (colonFree l) :=
  inferInstanceAs (Decidable (∀ c ∈ l, c ≠ ':'))

/-- Boolean character-list prefix test, modelling sled's `scan_prefix`
key-range filter. -/
def isPref : List Char → List Char → Bool
  | [], _ => true
  | _ :: _, [] => false
  | a :: as, b :: bs => a = b && isPref as bs

/-! ## External collaborators: codec and sorted store -/

/-- Modelled from the spec: the external codec (`zstd::encode_all`), an
injective compression of a byte payload; modelled as a length-prefixed
copy. -/
def zstdEncode (content : List Nat) : List Nat :=
  content.length :: content

/-- Modelled from the spec: the external codec (`zstd::decode_all`), fallible
on corrupt input: the stored length must match the payload. -/
def zstdDecode (blob : List Nat) : Option (List Nat) :=
  match blob with
  | [] => none
  | n :: rest => if rest.length = n then some rest else none

/-- The sled database: an association list of key/value pairs, kept with
unique keys in byte-wise key order by `dbInsert`. -/
abbrev Db := List (List Char × List Nat)

/-- Model of `sled::Db::insert` (upsert): replace the value under an existing
key, otherwise add the new entry.  sled keeps entries in byte-wise key order;
the model keeps them in insertion order, which is sound here because no
statement below depends on scan order — `get_history` and
`get_global_timeline` re-sort numerically after scanning, and every other
statement is order-insensitive (membership, length, sortedness of the final
result). -/
def dbInsert (k : List Char) (v : List Nat) : Db → Db
  | [] => [(k, v)]
  | (k', v') :: rest =>
    if k = k' then (k, v) :: rest
    else (k', v') :: dbInsert k v rest

/-- Model of `sled::Db::get`: the value stored under a key. -/
def dbGet (k : List Char) : Db → Option (List Nat)
  | [] => none
  | (k', v) :: rest => if k = k' then some v else dbGet k rest

/-- The keys of the store, in store order. -/
def dbKeys (db : Db) : List (List Char) :=
  db.map Prod.fst

/-- Model of `sled::Db::apply_batch` restricted to inserts, as
`save_snapshot` uses it: all inserts land, atomically (the fold is the
all-or-nothing application; a failed batch leaves the store untouched, which
in a pure model is the unchanged `db`). -/
def applyBatch (ops : List (List Char × List Nat)) (db : Db) : Db :=
  ops.foldl (fun d op => dbInsert op.1 op.2 d) db

/-- Model of `sled::Db::scan_prefix`: all entries whose key starts with the
prefix, in store order. -/
def scanPref (p : List Char) (db : Db) : Db :=
  db.filter (fun kv => isPref p kv.1)

/-! ## The Chronos store operations (`src/chronos/storage.rs`) -/

/-- The literal index-namespace token `"__time_idx__"`. -/
def tiChars : List Char :=
  ['_', '_', 't', 'i', 'm', 'e', '_', 'i', 'd', 'x', '_', '_']

/-- The primary data key `format!("{}:{}", file_path, timestamp)`. -/
def data_key (file_path : List Char) (timestamp : Int) : List Char :=
  file_path ++ ':' :: decRep timestamp

/-- The time-index key `format!("__time_idx__:{}:{}", timestamp, file_path)`. -/
def time_key (timestamp : Int) (file_path : List Char) : List Char :=
  tiChars ++ ':' :: (decRep timestamp ++ ':' :: file_path)

/-- The scan prefix `"__time_idx__:"` of the index namespace. -/
def tiColon : List Char :=
  tiChars ++ [':']

/-- One `get_history` result row (`SnapshotInfo { timestamp, size }`). -/
structure SnapshotInfo where
  timestamp : Int
  size : Nat
deriving DecidableEq

/-- Descending-timestamp ordering used by
`sort_by(|a, b| b.timestamp.cmp(&a.timestamp))` in `get_history`. -/
def histGe (a b : SnapshotInfo) : Prop :=
  b.timestamp ≤ a.timestamp

instance : DecidableRel histGe :=
  fun a b => inferInstanceAs (Decidable (b.timestamp ≤ a.timestamp))

instance : IsTotal SnapshotInfo histGe :=
  ⟨fun a b => le_total b.timestamp a.timestamp⟩

instance : IsTrans SnapshotInfo histGe :=
  ⟨fun _ _ _ h1 h2 => le_trans h2 h1⟩

/-- Descending-timestamp ordering used by
`sort_by(|a, b| b.0.cmp(&a.0))` in `get_global_timeline`. -/
def evGe (a b : Int × List Char) : Prop :=
  b.1 ≤ a.1

instance : DecidableRel evGe :=
  fun a b => inferInstanceAs (Decidable (b.1 ≤ a.1))

instance : IsTotal (Int × List Char) evGe :=
  ⟨fun a b => le_total b.1 a.1⟩

instance : IsTrans (Int × List Char) evGe :=
  ⟨fun _ _ _ h1 h2 => le_trans h2 h1⟩

/-- `ChronosStore::save_snapshot`: compress the content, build the primary
data key and the time-index key for the wall-clock timestamp, and apply both
inserts as one atomic batch. -/
def save_snapshot (db : Db) (file_path : List Char) (content : List Nat)
    (timestamp : Int) : Db :=
  let compressed := zstdEncode content
  applyBatch
    [(data_key file_path timestamp, compressed),
     (time_key timestamp file_path, [])] db

/-- `ChronosStore::get_history`: scan the `"<file_path>:"` prefix, keep every
entry whose trailing field parses as an `i64` timestamp (malformed keys are
silently skipped), record the stored value's length as the size, and sort by
timestamp descending. -/
def get_history (db : Db) (file_path : List Char) : List SnapshotInfo :=
  let snapshots := (scanPref (file_path ++ [':']) db).filterMap
    (fun kv => (parse_i64 (lastField kv.1)).map
      (fun ts => SnapshotInfo.mk ts kv.2.length))
  List.insertionSort histGe snapshots

/-- `ChronosStore::get_snapshot`: exact primary-key lookup, then decompress;
`Except.error` models the `?`-propagated `zstd::decode_all` failure on a
corrupt blob. -/
def get_snapshot (db : Db) (file_path : List Char) (timestamp : Int) :
    Except Unit (Option (List Nat)) :=
  match dbGet (data_key file_path timestamp) db with
  | some compressed =>
    match zstdDecode compressed with
    | some content => Except.ok (some content)
    | none => Except.error ()
  | none => Except.ok none

/-- `ChronosStore::get_global_timeline`: scan the index namespace, decode each
key as `__time_idx__:TIMESTAMP:PATH` via `splitn(3, ':')` (entries that do not
split into three fields or whose timestamp does not parse are skipped), sort
descending by timestamp, and truncate to `limit`. -/
def get_global_timeline (db : Db) (limit : Nat) : List (Int × List Char) :=
  let events := (scanPref tiColon db).filterMap
    (fun kv =>
      match splitn3 kv.1 with
      | [_, b, c] => (parse_i64 b).map (fun ts => (ts, c))
      | _ => none)
  (List.insertionSort evGe events).take limit

/-- `ChronosStore::get_checkpoint_state`: collect the distinct files having an
index entry at or before the target (the Rust `HashSet`, modelled as `dedup`),
then for each such file pick the newest history entry at or before the target
and decode that snapshot; files whose lookup or decode does not yield
`Ok(Some _)` are silently omitted. -/
def get_checkpoint_state (db : Db) (target_timestamp : Int) :
    List (List Char × List Nat) :=
  let unique_files := ((scanPref tiColon db).filterMap
    (fun kv =>
      match splitn3 kv.1 with
      | [_, b, c] =>
        match parse_i64 b with
        | some ts => if ts ≤ target_timestamp then some c else none
        | none => none
      | _ => none)).dedup
  unique_files.filterMap (fun path =>
    match (get_history db path).find? (fun s => decide (s.timestamp ≤ target_timestamp)) with
    | some snapshot =>
      match get_snapshot db path snapshot.timestamp with
      | Except.ok (some content) => some (path, content)
      | _ => none
    | none => none)

/-- A store built by a sequence of `save_snapshot` calls from the empty store;
each element of `ops` is `(file_path, content, timestamp)`.  Every reachable
store state is of this shape: the store is opened empty and only
`save_snapshot` writes to it (a failed `apply_batch` leaves the state
unchanged, so failures do not add reachable states). -/
def runSavesFrom (db : Db) (ops : List (List Char × List Nat × Int)) : Db :=
  ops.foldl (fun d op => save_snapshot d op.1 op.2.1 op.2.2) db

/-- Runs of `save_snapshot` from the empty store. -/
def runSaves (ops : List (List Char × List Nat × Int)) : Db :=
  runSavesFrom [] ops

/-! ## Derived predicates used by the statements -/

/-- All characters of a list are decimal digits. -/
def allDigits (l : List Char) : Prop :=
  ∀ c ∈ l, isDigitChar c

/-- Value of a big-endian digit-character list. -/
def valB : List Char → Nat
  | [] => 0
  | c :: cs => digitVal c * 10 ^ cs.length + valB cs

/-- Store well-formedness: the association list has no duplicate keys (sled,
being a map, guarantees this; `dbInsert` preserves it). -/
def DbWf (db : Db) : Prop :=
  (dbKeys db).Nodup

/-- Path sanitization assumed for the per-file claims: the saved paths contain
no key separator and none is the literal index token.  The spec requires path
sanitization (primary and index namespaces must not collide); separator-free
paths additionally rule out one path's primary namespace nesting inside
another's. -/
def SanePaths (ops : List (List Char × List Nat × Int)) : Prop :=
  ∀ o ∈ ops, colonFree o.1 ∧ o.1 ≠ tiChars

/-- The spec's own required sanitization invariant: no saved path has the
literal index prefix token as a leading segment. -/
def NoTiPaths (ops : List (List Char × List Nat × Int)) : Prop :=
  ∀ o ∈ ops, isPref tiColon o.1 = false

/-- Distinct saves carry distinct `(file_path, timestamp)` identities — the
store keys snapshots by that pair, and the spec's clock is monotonic enough
that one file is not snapshot twice in the same millisecond. -/
def pairsNodup (ops : List (List Char × List Nat × Int)) : Prop :=
  (ops.map (fun o => (o.1, o.2.2))).Nodup

instance (ops : List (List Char × List Nat × Int)) : Decidable (SanePaths ops) :=
  inferInstanceAs (Decidable (∀ o ∈ ops, colonFree o.1 ∧ o.1 ≠ tiChars))

instance (ops : List (List Char × List Nat × Int)) : Decidable (NoTiPaths ops) :=
  inferInstanceAs (Decidable (∀ o ∈ ops, isPref tiColon o.1 = false))

instance (ops : List (List Char × List Nat × Int)) : Decidable (pairsNodup ops) :=
  inferInstanceAs (Decidable (List.Nodup _))

/-! ## Decimal rendering and parsing: round-trip and shape lemmas -/

theorem isDigitChar_digitChar {d : Nat} (h : d < 10) : isDigitChar (digitChar d) := by
  interval_cases d <;> decide

theorem digitVal_digitChar {d : Nat} (h : d < 10) : digitVal (digitChar d) = d := by
  interval_cases d <;> decide

theorem isDigitChar_ne_colon {c : Char} (h : isDigitChar c) : c ≠ ':' := by
  rintro rfl
  revert h
  decide

theorem isDigitChar_ne_minus {c : Char} (h : isDigitChar c) : c ≠ '-' := by
  rintro rfl
  revert h
  decide

theorem isDigitChar_ne_plus {c : Char} (h : isDigitChar c) : c ≠ '+' := by
  rintro rfl
  revert h
  decide

theorem allDigits_toDigitsRev (fuel n : Nat) : allDigits (toDigitsRev fuel n) := by
  induction fuel generalizing n with
  | zero => intro c hc; simp [toDigitsRev] at hc
  | succ f ih =>
    intro c hc
    simp only [toDigitsRev] at hc
    by_cases h0 : n = 0
    · simp [h0] at hc
    · simp only [h0, if_false, List.mem_cons] at hc
      rcases hc with rfl | hc
      · exact isDigitChar_digitChar (Nat.mod_lt _ (by omega))
      · exact ih _ _ hc

theorem toDigitsRev_ne_nil {fuel n : Nat} (h0 : 0 < n) (hf : n ≤ fuel) :
    toDigitsRev fuel n ≠ [] := by
  cases fuel with
  | zero => omega
  | succ f =>
    have hne : ¬ n = 0 := by omega
    simp [toDigitsRev, hne]

theorem valB_append_singleton (l : List Char) (c : Char) :
    valB (l ++ [c]) = 10 * valB l + digitVal c := by
  induction l with
  | nil => simp [valB]
  | cons a l ih =>
    simp only [List.cons_append, valB, List.append_eq, ih]
    have hlen : (l ++ [c]).length = l.length + 1 := by simp
    rw [hlen]
    ring

theorem valB_toDigitsRev_reverse {fuel n : Nat} (h : n ≤ fuel) :
    valB (toDigitsRev fuel n).reverse = n := by
  induction fuel generalizing n with
  | zero =>
    interval_cases n
    simp [toDigitsRev, valB]
  | succ f ih =>
    by_cases h0 : n = 0
    · simp [toDigitsRev, h0, valB]
    · have hdiv : n / 10 ≤ f := by omega
      simp only [toDigitsRev, h0, if_false, List.reverse_cons, valB_append_singleton,
        ih hdiv, digitVal_digitChar (Nat.mod_lt n (by omega))]
      omega

theorem valB_lt {l : List Char} (h : allDigits l) : valB l < 10 ^ l.length := by
  induction l with
  | nil => simp [valB]
  | cons c cs ih =>
    have hc : digitVal c ≤ 9 := by
      have := h c (by simp)
      simp only [isDigitChar] at this
      simp only [digitVal]
      omega
    have hcs := ih (fun x hx => h x (by simp [hx]))
    simp only [valB, List.length_cons, pow_succ]
    nlinarith

theorem parseDigsAux_eq {l : List Char} (h : allDigits l) (acc : Nat) :
    parseDigsAux acc l = some (acc * 10 ^ l.length + valB l) := by
  induction l generalizing acc with
  | nil => simp [parseDigsAux, valB]
  | cons c cs ih =>
    have hc := h c (by simp)
    simp only [parseDigsAux, hc, if_pos]
    rw [ih (fun x hx => h x (by simp [hx]))]
    congr 1
    simp only [valB, List.length_cons, pow_succ]
    ring

theorem allDigits_natChars (n : Nat) : allDigits (natChars n) := by
  by_cases h0 : n = 0
  · intro c hc; simp [natChars, h0] at hc; simp [hc]; decide
  · intro c hc
    simp only [natChars, h0, if_false, List.mem_reverse] at hc
    exact allDigits_toDigitsRev n n c hc

theorem natChars_ne_nil (n : Nat) : natChars n ≠ [] := by
  by_cases h0 : n = 0
  · simp [natChars, h0]
  · simp only [natChars, h0, if_false, ne_eq, List.reverse_eq_nil_iff]
    exact toDigitsRev_ne_nil (by omega) le_rfl

theorem valB_natChars (n : Nat) : valB (natChars n) = n := by
  by_cases h0 : n = 0
  · simp [natChars, h0, valB]; decide
  · simp only [natChars, h0, if_false]
    exact valB_toDigitsRev_reverse le_rfl

theorem parseDigs_natChars (n : Nat) : parseDigs (natChars n) = some n := by
  rcases hne : natChars n with _ | ⟨c, cs⟩
  · exact absurd hne (natChars_ne_nil n)
  · have hd : allDigits (c :: cs) := hne ▸ allDigits_natChars n
    simp only [parseDigs, parseDigsAux_eq hd]
    have := valB_natChars n
    rw [hne] at this
    simp [this]

theorem colonFree_natChars (n : Nat) : colonFree (natChars n) :=
  fun c hc => isDigitChar_ne_colon (allDigits_natChars n c hc)

theorem colonFree_decRep (t : Int) : colonFree (decRep t) := by
  intro c hc
  simp only [decRep] at hc
  by_cases ht : t < 0
  · simp only [ht, if_pos, List.mem_cons] at hc
    rcases hc with rfl | hc
    · decide
    · exact colonFree_natChars _ c hc
  · simp only [ht, if_neg, if_false] at hc
    exact colonFree_natChars _ c hc

theorem parse_i64_natChars (n : Nat) : parse_i64 (natChars n) = some (n : Int) := by
  rcases hne : natChars n with _ | ⟨c, cs⟩
  · exact absurd hne (natChars_ne_nil n)
  · have hd : allDigits (c :: cs) := hne ▸ allDigits_natChars n
    have hc := hd c (by simp)
    simp only [parse_i64, isDigitChar_ne_minus hc, if_neg, isDigitChar_ne_plus hc,
      if_false, ← hne, parseDigs_natChars, Option.map_some']
    simp

theorem parse_i64_decRep (t : Int) : parse_i64 (decRep t) = some t := by
  by_cases ht : t < 0
  · have hpos : (0 : Int) ≤ -t := by omega
    have h1 : decRep t = '-' :: natChars (-t).toNat := by simp [decRep, ht]
    rw [h1]
    simp [parse_i64, parseDigs_natChars, Int.toNat_of_nonneg hpos]
  · have hpos : (0 : Int) ≤ t := by omega
    simp only [decRep, ht, if_false]
    rw [parse_i64_natChars, Int.toNat_of_nonneg hpos]

/-! ## Byte-wise key comparison lemmas -/

theorem lexLtB_append_left (c a b : List Char) :
    lexLtB (c ++ a) (c ++ b) = lexLtB a b := by
  induction c with
  | nil => rfl
  | cons x xs ih => simp [lexLtB, ih]

theorem lexLtB_append_of_lt :
    ∀ {a b : List Char} (x y : List Char), a.length = b.length →
      lexLtB a b = true → lexLtB (a ++ x) (b ++ y) = true := by
  intro a
  induction a with
  | nil =>
    intro b x y hlen h
    cases b with
    | nil => simp [lexLtB] at h
    | cons d ds => simp at hlen
  | cons c cs ih =>
    intro b x y hlen h
    cases b with
    | nil => simp at hlen
    | cons d ds =>
      simp only [List.cons_append]
      simp only [lexLtB] at h ⊢
      by_cases h1 : c.toNat < d.toNat
      · simp [h1]
      · by_cases h2 : d.toNat < c.toNat
        · simp [h1, h2] at h
        · simp only [h1, if_false, h2] at h ⊢
          exact ih x y (by simpa using hlen) h

theorem lexLtB_of_valB_lt :
    ∀ {a b : List Char}, allDigits a → allDigits b → a.length = b.length →
      valB a < valB b → lexLtB a b = true := by
  intro a
  induction a with
  | nil =>
    intro b _ _ hlen hv
    cases b with
    | nil => simp [valB] at hv
    | cons d ds => simp at hlen
  | cons c cs ih =>
    intro b ha hb hlen hv
    cases b with
    | nil => simp at hlen
    | cons d ds =>
      have hlen' : cs.length = ds.length := by simpa using hlen
      have hc : isDigitChar c := ha c (by simp)
      have hd : isDigitChar d := hb d (by simp)
      have hcs : allDigits cs := fun x hx => ha x (by simp [hx])
      have hds : allDigits ds := fun x hx => hb x (by simp [hx])
      simp only [valB, hlen'] at hv
      simp only [lexLtB]
      by_cases h1 : c.toNat < d.toNat
      · simp [h1]
      · by_cases h2 : d.toNat < c.toNat
        · exfalso
          have hvd : digitVal d + 1 ≤ digitVal c := by
            simp only [isDigitChar] at hc hd
            simp only [digitVal]
            omega
          have hmul : (digitVal d + 1) * 10 ^ ds.length ≤ digitVal c * 10 ^ ds.length :=
            Nat.mul_le_mul_right _ hvd
          have hlt : valB ds < 10 ^ ds.length := valB_lt hds
          have hlt' : valB cs < 10 ^ ds.length := hlen' ▸ valB_lt hcs
          nlinarith
        · have heq : digitVal c = digitVal d := by
            simp only [digitVal]
            omega
          simp only [h1, if_false, h2]
          refine ih hcs hds hlen' ?_
          rw [heq] at hv
          omega

/-! ## Store model lemmas -/

theorem dbGet_dbInsert (k k' : List Char) (v : List Nat) (db : Db) :
    dbGet k (dbInsert k' v db) = if k = k' then some v else dbGet k db := by
  induction db with
  | nil => simp [dbInsert, dbGet]
  | cons kv rest ih =>
    obtain ⟨k0, v0⟩ := kv
    simp only [dbInsert]
    by_cases h1 : k' = k0
    · subst h1
      by_cases h2 : k = k'
      · simp [dbGet, h2]
      · simp [dbGet, h2]
    · simp only [h1, if_false]
      by_cases h2 : k = k0
      · subst h2
        have : ¬ k = k' := fun h => h1 (h ▸ rfl)
        simp [dbGet, this]
      · simp [dbGet, h2, ih]

theorem mem_dbKeys_dbInsert {k k' : List Char} {v : List Nat} {db : Db} :
    k ∈ dbKeys (dbInsert k' v db) ↔ k = k' ∨ k ∈ dbKeys db := by
  induction db with
  | nil => simp [dbInsert, dbKeys]
  | cons kv rest ih =>
    obtain ⟨k0, v0⟩ := kv
    simp only [dbInsert]
    by_cases h1 : k' = k0
    · subst h1
      simp [dbKeys]
    · simp only [h1, if_false]
      simp only [dbKeys, List.map_cons, List.mem_cons] at ih ⊢
      constructor
      · rintro (rfl | h)
        · simp
        · rcases ih.mp h with h | h
          · exact Or.inl h
          · exact Or.inr (Or.inr h)
      · rintro (rfl | rfl | h)
        · exact Or.inr (ih.mpr (Or.inl rfl))
        · exact Or.inl rfl
        · exact Or.inr (ih.mpr (Or.inr h))

theorem length_dbInsert_of_not_mem {k : List Char} {v : List Nat} {db : Db}
    (h : k ∉ dbKeys db) : (dbInsert k v db).length = db.length + 1 := by
  induction db with
  | nil => simp [dbInsert]
  | cons kv rest ih =>
    obtain ⟨k0, v0⟩ := kv
    simp only [dbKeys, List.map_cons, List.mem_cons] at h
    push_neg at h
    simp only [dbInsert, h.1, if_false, List.length_cons]
    rw [ih h.2]

theorem DbWf_dbInsert {k : List Char} {v : List Nat} {db : Db}
    (h : DbWf db) : DbWf (dbInsert k v db) := by
  induction db with
  | nil => simp [DbWf, dbInsert, dbKeys]
  | cons kv rest ih =>
    obtain ⟨k0, v0⟩ := kv
    simp only [DbWf, dbKeys, List.map_cons, List.nodup_cons] at h
    by_cases h1 : k = k0
    · subst h1
      simp only [dbInsert, if_true]
      simpa only [DbWf, dbKeys, List.map_cons, List.nodup_cons] using h
    · simp only [dbInsert, if_neg h1]
      simp only [DbWf, dbKeys, List.map_cons, List.nodup_cons]
      constructor
      · intro hmem
        rcases mem_dbKeys_dbInsert.mp
            (show k0 ∈ dbKeys (dbInsert k v rest) from hmem) with h2 | h2
        · exact h1 h2.symm
        · exact h.1 h2
      · exact ih h.2

theorem mem_dbKeys_iff {k : List Char} {db : Db} :
    k ∈ dbKeys db ↔ ∃ v, (k, v) ∈ db := by
  constructor
  · intro h
    rcases List.mem_map.mp h with ⟨⟨a, b⟩, hm, hf⟩
    exact ⟨b, by rwa [show a = k from hf] at hm⟩
  · rintro ⟨v, hv⟩
    exact List.mem_map.mpr ⟨(k, v), hv, rfl⟩

theorem dbGet_of_mem {k : List Char} {v : List Nat} {db : Db}
    (hwf : DbWf db) (h : (k, v) ∈ db) : dbGet k db = some v := by
  induction db with
  | nil => simp at h
  | cons kv rest ih =>
    obtain ⟨k0, v0⟩ := kv
    simp only [DbWf, dbKeys, List.map_cons, List.nodup_cons] at hwf
    rcases List.mem_cons.mp h with heq | hmem
    · cases heq
      simp [dbGet]
    · have hne : ¬ k = k0 := by
        rintro rfl
        exact hwf.1 (mem_dbKeys_iff.mpr ⟨v, hmem⟩)
      simp [dbGet, hne, ih hwf.2 hmem]

theorem dbGet_mem {k : List Char} {v : List Nat} {db : Db}
    (h : dbGet k db = some v) : (k, v) ∈ db := by
  induction db with
  | nil => simp [dbGet] at h
  | cons kv rest ih =>
    obtain ⟨k0, v0⟩ := kv
    simp only [dbGet] at h
    by_cases h1 : k = k0
    · subst h1
      rw [if_pos rfl] at h
      injection h with h2
      subst h2
      exact List.mem_cons_self _ _
    · rw [if_neg h1] at h
      exact List.mem_cons_of_mem _ (ih h)

/-! ## Key shape lemmas -/

theorem lastField_append {p d : List Char} (h : colonFree d) :
    lastField (p ++ ':' :: d) = d := by
  have h1 : (p ++ ':' :: d).reverse = d.reverse ++ ':' :: p.reverse := by
    simp
  have h2 : ∀ c ∈ d.reverse, (c != ':') = true := by
    intro c hc
    simpa using h c (List.mem_reverse.mp hc)
  simp only [lastField, h1]
  rw [List.takeWhile_append_of_pos h2]
  simp [List.takeWhile]

theorem lastField_data_key (p : List Char) (t : Int) :
    lastField (data_key p t) = decRep t :=
  lastField_append (colonFree_decRep t)

theorem splitOnce_append {a : List Char} (r : List Char) (h : colonFree a) :
    splitOnce (a ++ ':' :: r) = some (a, r) := by
  induction a with
  | nil => simp [splitOnce]
  | cons c cs ih =>
    have hc : ¬ c = ':' := h c (by simp)
    simp only [List.cons_append, splitOnce, List.append_eq]
    rw [if_neg hc, ih (fun x hx => h x (by simp [hx]))]
    rfl

theorem splitOnce_colonFree {l : List Char} (h : colonFree l) :
    splitOnce l = none := by
  induction l with
  | nil => rfl
  | cons c cs ih =>
    have hc : ¬ c = ':' := h c (by simp)
    simp [splitOnce, hc, ih (fun x hx => h x (by simp [hx]))]

theorem colonFree_tiChars : colonFree tiChars := by decide

theorem splitn3_time_key (t : Int) (p : List Char) :
    splitn3 (time_key t p) = [tiChars, decRep t, p] := by
  simp only [time_key, splitn3, splitOnce_append _ colonFree_tiChars,
    splitOnce_append _ (colonFree_decRep t)]

theorem splitn3_data_key_tiChars (t : Int) :
    splitn3 (data_key tiChars t) = [tiChars, decRep t] := by
  simp only [data_key, splitn3, splitOnce_append _ colonFree_tiChars,
    splitOnce_colonFree (colonFree_decRep t)]

theorem data_key_inj {p p' : List Char} {t t' : Int}
    (h : data_key p t = data_key p' t') : p = p' ∧ t = t' := by
  have ht : decRep t = decRep t' := by
    have := congrArg lastField h
    rwa [lastField_data_key, lastField_data_key] at this
  have htt : t = t' := by
    have := congrArg parse_i64 ht
    rw [parse_i64_decRep, parse_i64_decRep] at this
    exact Option.some_inj.mp this
  refine ⟨?_, htt⟩
  simp only [data_key, ht] at h
  exact List.append_cancel_right h

theorem time_key_inj {p p' : List Char} {t t' : Int}
    (h : time_key t p = time_key t' p') : p = p' ∧ t = t' := by
  have := congrArg splitn3 h
  rw [splitn3_time_key, splitn3_time_key] at this
  have h1 : decRep t = decRep t' := by
    injection this with _ this
    injection this with h1 _
  have h2 : p = p' := by
    injection this with _ this
    injection this with _ this
    injection this with h2 _
  have := congrArg parse_i64 h1
  rw [parse_i64_decRep, parse_i64_decRep] at this
  exact ⟨h2, Option.some_inj.mp this⟩

theorem data_key_ne_time_key_self (p : List Char) (t t' : Int)
    (hlen : (decRep t).length = (decRep t').length) :
    data_key p t ≠ time_key t' p := by
  intro h
  have := congrArg List.length h
  simp only [data_key, time_key, List.length_append, List.length_cons, tiChars] at this
  omega

theorem data_key_ne_time_key_of_colonFree {p : List Char} (hp : colonFree p)
    (t t' : Int) (q : List Char) : data_key p t ≠ time_key t' q := by
  intro h
  have := congrArg splitOnce h
  rw [show data_key p t = p ++ ':' :: decRep t from rfl,
    splitOnce_append _ hp] at this
  rw [show time_key t' q = tiChars ++ ':' :: (decRep t' ++ ':' :: q) from rfl,
    splitOnce_append _ colonFree_tiChars] at this
  have h2 : decRep t = decRep t' ++ ':' :: q := by
    injection Option.some_inj.mp this with _ h2
  have : (':' : Char) ∈ decRep t := by
    rw [h2]
    simp
  exact colonFree_decRep t ':' this rfl

/-! ## Prefix-scan lemmas -/

theorem isPref_self_append (a b : List Char) : isPref a (a ++ b) = true := by
  induction a with
  | nil => rfl
  | cons x xs ih => simp [isPref, ih]

theorem isPref_iff {a b : List Char} : isPref a b = true ↔ ∃ c, b = a ++ c := by
  constructor
  · intro h
    induction a generalizing b with
    | nil => exact ⟨b, rfl⟩
    | cons x xs ih =>
      cases b with
      | nil => simp [isPref] at h
      | cons y ys =>
        simp only [isPref, Bool.and_eq_true, decide_eq_true_eq] at h
        obtain ⟨rfl, h2⟩ := h
        obtain ⟨c, rfl⟩ := ih h2
        exact ⟨c, rfl⟩
  · rintro ⟨c, rfl⟩
    exact isPref_self_append a c

theorem append_colon_cons (p d : List Char) : (p ++ [':']) ++ d = p ++ ':' :: d := by
  simp

theorem isPref_data_key_of_colonFree {p q : List Char} (hp : colonFree p)
    (hq : colonFree q) {t : Int}
    (h : isPref (p ++ [':']) (data_key q t) = true) : p = q := by
  obtain ⟨c, hc⟩ := isPref_iff.mp h
  rw [append_colon_cons] at hc
  have h1 := splitOnce_append (decRep t) hq
  rw [show data_key q t = q ++ ':' :: decRep t from rfl] at hc
  rw [hc, splitOnce_append _ hp] at h1
  exact (Prod.mk.injEq _ _ _ _ ▸ Option.some_inj.mp h1).1

theorem isPref_time_key_of_colonFree {p : List Char} (hp : colonFree p)
    (t : Int) (q : List Char)
    (h : isPref (p ++ [':']) (time_key t q) = true) : p = tiChars := by
  obtain ⟨c, hc⟩ := isPref_iff.mp h
  rw [append_colon_cons] at hc
  have h1 := splitOnce_append (decRep t ++ ':' :: q) colonFree_tiChars
  rw [show time_key t q = tiChars ++ ':' :: (decRep t ++ ':' :: q) from rfl] at hc
  rw [hc, splitOnce_append _ hp] at h1
  exact (Prod.mk.injEq _ _ _ _ ▸ Option.some_inj.mp h1).1

theorem isPref_tiColon_time_key (t : Int) (q : List Char) :
    isPref tiColon (time_key t q) = true := by
  rw [show time_key t q = tiColon ++ (decRep t ++ ':' :: q) by
    simp [time_key, tiColon]]
  exact isPref_self_append _ _

theorem isPref_data_key_self (p : List Char) (t : Int) :
    isPref (p ++ [':']) (data_key p t) = true := by
  rw [show data_key p t = (p ++ [':']) ++ decRep t from (append_colon_cons p _).symm]
  exact isPref_self_append _ _

theorem tiColon_pref_data_key {q : List Char} {t : Int}
    (hq : isPref tiColon q = false)
    (h : isPref tiColon (data_key q t) = true) : q = tiChars := by
  obtain ⟨c, hc⟩ := isPref_iff.mp h
  have hc' : q ++ ':' :: decRep t = tiChars ++ ':' :: c := by
    rw [show data_key q t = q ++ ':' :: decRep t from rfl] at hc
    rw [hc]
    simp [tiColon]
  have hlen12 : tiChars.length = 12 := by decide
  rcases Nat.lt_trichotomy q.length 12 with hl | hl | hl
  · exfalso
    have hL : List.take (q.length + 1) (q ++ ':' :: decRep t) = q ++ [':'] := by
      rw [← append_colon_cons, show q.length + 1 = (q ++ [':']).length by simp,
        List.take_left]
    have hR : List.take (q.length + 1) (tiChars ++ ':' :: c) =
        tiChars.take (q.length + 1) :=
      List.take_append_of_le_length (by rw [hlen12]; omega)
    have heq : q ++ [':'] = tiChars.take (q.length + 1) := by
      rw [← hL, ← hR, hc']
    have hmem : (':' : Char) ∈ tiChars.take (q.length + 1) := by
      rw [← heq]
      simp
    exact colonFree_tiChars ':' (List.take_subset _ _ hmem) rfl
  · have hL : List.take 12 (q ++ ':' :: decRep t) = q := by
      rw [← hl, List.take_left]
    have hR : List.take 12 (tiChars ++ ':' :: c) = tiChars := by
      rw [← hlen12, List.take_left]
    rw [← hL, hc', hR]
  · exfalso
    have hR : List.take 13 (tiChars ++ ':' :: c) = tiColon := by
      rw [show tiChars ++ ':' :: c = tiColon ++ c by simp [tiColon],
        show (13 : Nat) = tiColon.length by decide, List.take_left]
    have hL : List.take 13 (q ++ ':' :: decRep t) = List.take 13 q :=
      List.take_append_of_le_length (by omega)
    have htake : List.take 13 q = tiColon := by
      rw [← hL, hc', hR]
    have hpref : isPref tiColon q = true := by
      refine isPref_iff.mpr ⟨q.drop 13, ?_⟩
      conv_lhs => rw [← List.take_append_drop 13 q]
      rw [htake]
    rw [hpref] at hq
    exact Bool.true_eq_false.mp hq

/-! ## Reachable-store characterization -/

theorem zstdDecode_zstdEncode (c : List Nat) : zstdDecode (zstdEncode c) = some c := by
  simp [zstdEncode, zstdDecode]

theorem save_snapshot_eq (db : Db) (p : List Char) (c : List Nat) (t : Int) :
    save_snapshot db p c t =
      dbInsert (time_key t p) [] (dbInsert (data_key p t) (zstdEncode c) db) := rfl

theorem mem_dbKeys_runSavesFrom {ops : List (List Char × List Nat × Int)} :
    ∀ (db : Db) (k : List Char),
      k ∈ dbKeys (runSavesFrom db ops) ↔
        k ∈ dbKeys db ∨ ∃ o ∈ ops, k = data_key o.1 o.2.2 ∨ k = time_key o.2.2 o.1 := by
  induction ops with
  | nil => simp [runSavesFrom]
  | cons o rest ih =>
    intro db k
    rw [show runSavesFrom db (o :: rest) =
      runSavesFrom (save_snapshot db o.1 o.2.1 o.2.2) rest from rfl]
    rw [ih]
    rw [save_snapshot_eq]
    rw [mem_dbKeys_dbInsert]
    rw [mem_dbKeys_dbInsert]
    constructor
    · rintro ((rfl | rfl | h) | ⟨o', ho', h⟩)
      · exact Or.inr ⟨o, by simp, Or.inr rfl⟩
      · exact Or.inr ⟨o, by simp, Or.inl rfl⟩
      · exact Or.inl h
      · exact Or.inr ⟨o', by simp [ho'], h⟩
    · rintro (h | ⟨o', ho', h⟩)
      · exact Or.inl (Or.inr (Or.inr h))
      · rcases List.mem_cons.mp ho' with rfl | ho'
        · rcases h with rfl | rfl
          · exact Or.inl (Or.inr (Or.inl rfl))
          · exact Or.inl (Or.inl rfl)
        · exact Or.inr ⟨o', ho', h⟩

theorem DbWf_runSavesFrom {ops : List (List Char × List Nat × Int)} :
    ∀ {db : Db}, DbWf db → DbWf (runSavesFrom db ops) := by
  induction ops with
  | nil => intro db h; exact h
  | cons o rest ih =>
    intro db h
    rw [show runSavesFrom db (o :: rest) =
      runSavesFrom (save_snapshot db o.1 o.2.1 o.2.2) rest from rfl]
    exact ih (by rw [save_snapshot_eq]; exact DbWf_dbInsert (DbWf_dbInsert h))

theorem DbWf_runSaves (ops : List (List Char × List Nat × Int)) :
    DbWf (runSaves ops) :=
  DbWf_runSavesFrom (by simp [DbWf, dbKeys])

theorem dbGet_save_self (db : Db) (p : List Char) (c : List Nat) (t : Int) :
    dbGet (data_key p t) (save_snapshot db p c t) = some (zstdEncode c) := by
  rw [save_snapshot_eq, dbGet_dbInsert,
    if_neg (data_key_ne_time_key_self p t t rfl), dbGet_dbInsert, if_pos rfl]

theorem dbGet_runSavesFrom_untouched {k : List Char}
    {ops : List (List Char × List Nat × Int)}
    (h : ∀ o ∈ ops, data_key o.1 o.2.2 ≠ k ∧ time_key o.2.2 o.1 ≠ k) :
    ∀ db, dbGet k (runSavesFrom db ops) = dbGet k db := by
  induction ops with
  | nil => intro db; rfl
  | cons o rest ih =>
    intro db
    rw [show runSavesFrom db (o :: rest) =
      runSavesFrom (save_snapshot db o.1 o.2.1 o.2.2) rest from rfl]
    rw [ih (fun o' ho' => h o' (by simp [ho']))]
    have ho := h o (by simp)
    rw [save_snapshot_eq, dbGet_dbInsert, if_neg (fun hh => ho.2 hh.symm),
      dbGet_dbInsert, if_neg (fun hh => ho.1 hh.symm)]

theorem dbGet_data_key_runSavesFrom {p : List Char} {c : List Nat} {t : Int}
    {ops : List (List Char × List Nat × Int)} (hp : colonFree p)
    (hmem : (p, c, t) ∈ ops) (huniq : ∀ c', (p, c', t) ∈ ops → c' = c) :
    ∀ db, dbGet (data_key p t) (runSavesFrom db ops) = some (zstdEncode c) := by
  induction ops with
  | nil => simp at hmem
  | cons o rest ih =>
    intro db
    by_cases hr : (p, c, t) ∈ rest
    · exact ih hr (fun c' h => huniq c' (List.mem_cons_of_mem _ h)) _
    · have ho : o = (p, c, t) := by
        rcases List.mem_cons.mp hmem with h | h
        · exact h.symm
        · exact absurd h hr
      subst ho
      rw [show runSavesFrom db ((p, c, t) :: rest) =
        runSavesFrom (save_snapshot db p c t) rest from rfl]
      rw [dbGet_runSavesFrom_untouched ?hrest _, dbGet_save_self]
      case hrest =>
        intro o' ho'
        constructor
        · intro hh
          obtain ⟨h1, h2⟩ := data_key_inj hh
          have : (p, o'.2.1, t) ∈ rest := by
            have : o' = (p, o'.2.1, t) := by
              obtain ⟨a, b, t'⟩ := o'
              simp only at h1 h2
              simp [h1, h2]
            rwa [this] at ho'
          exact hr ((huniq o'.2.1 (List.mem_cons_of_mem _ this)) ▸ this)
        · exact (data_key_ne_time_key_of_colonFree hp t o'.2.2 o'.1).symm

/-! ## Generic list helpers -/

theorem nodup_filterMap_local {α β : Type} {g : α → Option β} :
    ∀ {l : List α},
      (∀ a ∈ l, ∀ b ∈ l, ∀ x, g a = some x → g b = some x → a = b) →
      l.Nodup → (l.filterMap g).Nodup := by
  intro l
  induction l with
  | nil => intro _ _; simp
  | cons a rest ih =>
    intro hinj hnd
    rw [List.filterMap_cons]
    rcases List.nodup_cons.mp hnd with ⟨hna, hnd'⟩
    have ihr := ih (fun x hx y hy z h1 h2 =>
      hinj x (by simp [hx]) y (by simp [hy]) z h1 h2) hnd'
    cases hga : g a with
    | none => exact ihr
    | some x =>
      rw [List.nodup_cons]
      refine ⟨?_, ihr⟩
      intro hx
      rcases List.mem_filterMap.mp hx with ⟨b, hb, hgb⟩
      exact hna (hinj a (by simp) b (by simp [hb]) x hga hgb ▸ hb)

theorem map_fst_filterMap_self {α β : Type} {f : α → Option (α × β)}
    (hf : ∀ a x, f a = some x → x.1 = a) :
    ∀ {l : List α}, l.Nodup → ((l.filterMap f).map Prod.fst).Nodup := by
  intro l
  induction l with
  | nil => intro _; simp
  | cons a rest ih =>
    intro hnd
    rcases List.nodup_cons.mp hnd with ⟨hna, hnd'⟩
    rw [List.filterMap_cons]
    cases hga : f a with
    | none => exact ih hnd'
    | some x =>
      rw [List.map_cons, List.nodup_cons]
      refine ⟨?_, ih hnd'⟩
      intro hx
      rcases List.mem_map.mp hx with ⟨y, hy, hfy⟩
      rcases List.mem_filterMap.mp hy with ⟨b, hb, hgb⟩
      have hxa : x.1 = a := hf a x hga
      have hyb : y.1 = b := hf b y hgb
      rw [hyb] at hfy
      have hba : b = a := hfy.trans hxa
      rw [hba] at hb
      exact hna hb

/-! ## `get_history` characterization -/

theorem scanPref_mem {p : List Char} {db : Db} {kv : List Char × List Nat} :
    kv ∈ scanPref p db ↔ kv ∈ db ∧ isPref p kv.1 = true := by
  simp [scanPref, List.mem_filter]

theorem map_timestamp_filterMap (l : Db) :
    ((l.filterMap (fun kv => (parse_i64 (lastField kv.1)).map
      (fun ts => SnapshotInfo.mk ts kv.2.length))).map (fun s => s.timestamp))
      = l.filterMap (fun kv => parse_i64 (lastField kv.1)) := by
  induction l with
  | nil => rfl
  | cons kv rest ih =>
    rw [List.filterMap_cons, List.filterMap_cons]
    cases h : parse_i64 (lastField kv.1) with
    | none => simpa [h] using ih
    | some t => simp [h, ih]

theorem history_key_shape {ops : List (List Char × List Nat × Int)}
    (hs : SanePaths ops) {p : List Char} (hp : colonFree p) (hpti : p ≠ tiChars)
    {k : List Char} (hk : k ∈ dbKeys (runSaves ops))
    (hpref : isPref (p ++ [':']) k = true) :
    ∃ c t, (p, c, t) ∈ ops ∧ k = data_key p t := by
  rcases (mem_dbKeys_runSavesFrom [] k).mp hk with h | ⟨o, ho, hcase⟩
  · simp [dbKeys] at h
  · obtain ⟨q, c, t⟩ := o
    rcases hcase with rfl | rfl
    · have hq : colonFree q := (hs _ ho).1
      have : p = q := isPref_data_key_of_colonFree hp hq hpref
      subst this
      exact ⟨c, t, ho, rfl⟩
    · exact absurd (isPref_time_key_of_colonFree hp _ _ hpref) hpti

theorem mem_history_of_saved {ops : List (List Char × List Nat × Int)}
    {p : List Char} {c : List Nat} {t : Int} (hmem : (p, c, t) ∈ ops) :
    ∃ s ∈ get_history (runSaves ops) p, s.timestamp = t := by
  have hk : data_key p t ∈ dbKeys (runSaves ops) :=
    (mem_dbKeys_runSavesFrom [] _).mpr (Or.inr ⟨(p, c, t), hmem, Or.inl rfl⟩)
  obtain ⟨v, hv⟩ := mem_dbKeys_iff.mp hk
  have hscan : (data_key p t, v) ∈ scanPref (p ++ [':']) (runSaves ops) :=
    scanPref_mem.mpr ⟨hv, isPref_data_key_self p t⟩
  refine ⟨SnapshotInfo.mk t v.length, ?_, rfl⟩
  simp only [get_history, List.mem_insertionSort]
  refine List.mem_filterMap.mpr ⟨(data_key p t, v), hscan, ?_⟩
  rw [lastField_data_key, parse_i64_decRep]
  rfl

theorem history_ts_saved {ops : List (List Char × List Nat × Int)}
    (hs : SanePaths ops) {p : List Char} (hp : colonFree p) (hpti : p ≠ tiChars)
    {s : SnapshotInfo} (hsm : s ∈ get_history (runSaves ops) p) :
    ∃ c, (p, c, s.timestamp) ∈ ops := by
  simp only [get_history, List.mem_insertionSort] at hsm
  rcases List.mem_filterMap.mp hsm with ⟨kv, hkv, hF⟩
  rcases scanPref_mem.mp hkv with ⟨hdb, hpref⟩
  have hk : kv.1 ∈ dbKeys (runSaves ops) :=
    mem_dbKeys_iff.mpr ⟨kv.2, by rwa [← Prod.mk.eta (p := kv)] at hdb⟩
  obtain ⟨c, t, hmem, hkey⟩ := history_key_shape hs hp hpti hk hpref
  rw [hkey, lastField_data_key, parse_i64_decRep] at hF
  have hts : s.timestamp = t := by
    have := Option.some_inj.mp hF
    rw [← this]
  rw [hts]
  exact ⟨c, hmem⟩

theorem history_nodup_ts {ops : List (List Char × List Nat × Int)}
    (hs : SanePaths ops) {p : List Char} (hp : colonFree p) (hpti : p ≠ tiChars) :
    ((get_history (runSaves ops) p).map (fun s => s.timestamp)).Nodup := by
  have hperm : List.Perm (get_history (runSaves ops) p)
      ((scanPref (p ++ [':']) (runSaves ops)).filterMap
        (fun kv => (parse_i64 (lastField kv.1)).map
          (fun ts => SnapshotInfo.mk ts kv.2.length))) :=
    List.perm_insertionSort _ _
  refine (hperm.map (fun s => s.timestamp)).nodup_iff.mpr ?_
  rw [map_timestamp_filterMap]
  have hkeysnd : ((scanPref (p ++ [':']) (runSaves ops)).map Prod.fst).Nodup := by
    have hsub : List.Sublist (scanPref (p ++ [':']) (runSaves ops)) (runSaves ops) :=
      List.filter_sublist _
    exact (DbWf_runSaves ops).sublist (hsub.map Prod.fst)
  refine nodup_filterMap_local ?_ (hkeysnd.of_map Prod.fst)
  intro a ha b hb x hga hgb
  rcases scanPref_mem.mp ha with ⟨hadb, hapref⟩
  rcases scanPref_mem.mp hb with ⟨hbdb, hbpref⟩
  have hak : a.1 ∈ dbKeys (runSaves ops) := mem_dbKeys_iff.mpr
    ⟨a.2, by rwa [← Prod.mk.eta (p := a)] at hadb⟩
  have hbk : b.1 ∈ dbKeys (runSaves ops) := mem_dbKeys_iff.mpr
    ⟨b.2, by rwa [← Prod.mk.eta (p := b)] at hbdb⟩
  obtain ⟨ca, ta, hma, hkeya⟩ := history_key_shape hs hp hpti hak hapref
  obtain ⟨cb, tb, hmb, hkeyb⟩ := history_key_shape hs hp hpti hbk hbpref
  rw [hkeya, lastField_data_key, parse_i64_decRep] at hga
  rw [hkeyb, lastField_data_key, parse_i64_decRep] at hgb
  have hta : ta = x := Option.some_inj.mp hga
  have htb : tb = x := Option.some_inj.mp hgb
  have hkeq : a.1 = b.1 := by rw [hkeya, hkeyb, hta, htb]
  exact List.inj_on_of_nodup_map hkeysnd ha hb hkeq

theorem history_sorted (db : Db) (p : List Char) :
    List.Pairwise histGe (get_history db p) :=
  List.sorted_insertionSort histGe _

/-! ## `find?` on a descending history -/

theorem find_le_props {T : Int} :
    ∀ {l : List SnapshotInfo}, List.Pairwise histGe l →
      ∀ {s}, l.find? (fun s => decide (s.timestamp ≤ T)) = some s →
        s ∈ l ∧ s.timestamp ≤ T ∧
          ∀ s' ∈ l, s'.timestamp ≤ T → s'.timestamp ≤ s.timestamp := by
  intro l
  induction l with
  | nil => intro _ s h; simp [List.find?] at h
  | cons a rest ih =>
    intro hpw s hfind
    rcases List.pairwise_cons.mp hpw with ⟨hhead, htail⟩
    by_cases ha : a.timestamp ≤ T
    · rw [List.find?_cons_of_pos _ (by simpa using ha)] at hfind
      obtain rfl := Option.some_inj.mp hfind
      refine ⟨by simp, ha, ?_⟩
      intro s' hs' _
      rcases List.mem_cons.mp hs' with rfl | hs'
      · exact le_refl _
      · exact hhead s' hs'
    · rw [List.find?_cons_of_neg _ (by simpa using ha)] at hfind
      obtain ⟨hm, hle, hmax⟩ := ih htail hfind
      refine ⟨List.mem_cons_of_mem _ hm, hle, ?_⟩
      intro s' hs' hs'T
      rcases List.mem_cons.mp hs' with rfl | hs'
      · exact absurd hs'T ha
      · exact hmax s' hs' hs'T

theorem find_le_isSome {T t0 : Int} {l : List SnapshotInfo}
    (hmem : ∃ s ∈ l, s.timestamp = t0) (ht0 : t0 ≤ T) :
    ∃ s, l.find? (fun s => decide (s.timestamp ≤ T)) = some s := by
  obtain ⟨s0, hs0, hts⟩ := hmem
  have : (l.find? (fun s => decide (s.timestamp ≤ T))).isSome :=
    List.find?_isSome.mpr ⟨s0, hs0, by simp [hts, ht0]⟩
  exact Option.isSome_iff_exists.mp this

/-! ## Index-namespace scan characterization -/

theorem index_key_shape {ops : List (List Char × List Nat × Int)}
    (hw : NoTiPaths ops) {k : List Char} (hk : k ∈ dbKeys (runSaves ops))
    (hpref : isPref tiColon k = true) :
    (∃ q c t, (q, c, t) ∈ ops ∧ k = time_key t q) ∨
      (∃ c t, (tiChars, c, t) ∈ ops ∧ k = data_key tiChars t) := by
  rcases (mem_dbKeys_runSavesFrom [] k).mp hk with h | ⟨o, ho, hcase⟩
  · simp [dbKeys] at h
  · obtain ⟨q, c, t⟩ := o
    rcases hcase with rfl | rfl
    · right
      have hq : q = tiChars := tiColon_pref_data_key (hw _ ho) hpref
      subst hq
      exact ⟨c, t, ho, rfl⟩
    · left
      exact ⟨q, c, t, ho, rfl⟩

theorem evF_time_key (t : Int) (q : List Char) :
    (match splitn3 (time_key t q) with
      | [_, b, c] => (parse_i64 b).map (fun ts => (ts, c))
      | _ => none) = some (t, q) := by
  simp only [splitn3_time_key, parse_i64_decRep, Option.map_some']

theorem evF_data_key_tiChars (t : Int) :
    (match splitn3 (data_key tiChars t) with
      | [_, b, c] => (parse_i64 b).map (fun ts => (ts, c))
      | _ => none) = (none : Option (Int × List Char)) := by
  simp only [splitn3_data_key_tiChars]

theorem mem_timeline_events {ops : List (List Char × List Nat × Int)}
    (hw : NoTiPaths ops) {t : Int} {q : List Char} :
    (t, q) ∈ (scanPref tiColon (runSaves ops)).filterMap
        (fun kv =>
          match splitn3 kv.1 with
          | [_, b, c] => (parse_i64 b).map (fun ts => (ts, c))
          | _ => none) ↔
      ∃ c, (q, c, t) ∈ ops := by
  constructor
  · intro h
    rcases List.mem_filterMap.mp h with ⟨kv, hkv, hF⟩
    rcases scanPref_mem.mp hkv with ⟨hdb, hpref⟩
    have hk : kv.1 ∈ dbKeys (runSaves ops) := mem_dbKeys_iff.mpr
      ⟨kv.2, by rwa [← Prod.mk.eta (p := kv)] at hdb⟩
    rcases index_key_shape hw hk hpref with ⟨q', c', t', hm, hkey⟩ | ⟨c', t', hm, hkey⟩
    · rw [hkey, evF_time_key] at hF
      obtain ⟨rfl, rfl⟩ := Prod.mk.injEq _ _ _ _ ▸ Option.some_inj.mp hF
      exact ⟨c', hm⟩
    · rw [hkey, evF_data_key_tiChars] at hF
      simp at hF
  · rintro ⟨c, hmem⟩
    have hk : time_key t q ∈ dbKeys (runSaves ops) :=
      (mem_dbKeys_runSavesFrom [] _).mpr (Or.inr ⟨(q, c, t), hmem, Or.inr rfl⟩)
    obtain ⟨v, hv⟩ := mem_dbKeys_iff.mp hk
    refine List.mem_filterMap.mpr ⟨(time_key t q, v),
      scanPref_mem.mpr ⟨hv, isPref_tiColon_time_key t q⟩, evF_time_key t q⟩

theorem scanPref_keys_nodup (p : List Char) (ops : List (List Char × List Nat × Int)) :
    ((scanPref p (runSaves ops)).map Prod.fst).Nodup := by
  have hsub : List.Sublist (scanPref p (runSaves ops)) (runSaves ops) :=
    List.filter_sublist _
  exact (DbWf_runSaves ops).sublist (hsub.map Prod.fst)

theorem timeline_events_nodup {ops : List (List Char × List Nat × Int)}
    (hw : NoTiPaths ops) :
    ((scanPref tiColon (runSaves ops)).filterMap
        (fun kv =>
          match splitn3 kv.1 with
          | [_, b, c] => (parse_i64 b).map (fun ts => (ts, c))
          | _ => none)).Nodup := by
  refine nodup_filterMap_local ?_ ((scanPref_keys_nodup _ ops).of_map Prod.fst)
  intro a ha b hb x hga hgb
  rcases scanPref_mem.mp ha with ⟨hadb, hapref⟩
  rcases scanPref_mem.mp hb with ⟨hbdb, hbpref⟩
  have hak : a.1 ∈ dbKeys (runSaves ops) := mem_dbKeys_iff.mpr
    ⟨a.2, by rwa [← Prod.mk.eta (p := a)] at hadb⟩
  have hbk : b.1 ∈ dbKeys (runSaves ops) := mem_dbKeys_iff.mpr
    ⟨b.2, by rwa [← Prod.mk.eta (p := b)] at hbdb⟩
  have hkeq : a.1 = b.1 := by
    rcases index_key_shape hw hak hapref with ⟨qa, ca, ta, _, hkeya⟩ | ⟨ca, ta, _, hkeya⟩
    · rcases index_key_shape hw hbk hbpref with ⟨qb, cb, tb, _, hkeyb⟩ | ⟨cb, tb, _, hkeyb⟩
      · rw [hkeya, evF_time_key] at hga
        rw [hkeyb, evF_time_key] at hgb
        have h1 : (ta, qa) = x := Option.some_inj.mp hga
        have h2 : (tb, qb) = x := Option.some_inj.mp hgb
        rw [hkeya, hkeyb]
        obtain ⟨rfl, rfl⟩ := Prod.mk.injEq _ _ _ _ ▸ h1.trans h2.symm
        rfl
      · rw [hkeyb, evF_data_key_tiChars] at hgb
        simp at hgb
    · rw [hkeya, evF_data_key_tiChars] at hga
      simp at hga
  exact List.inj_on_of_nodup_map (scanPref_keys_nodup tiColon ops) ha hb hkeq

/-! ## Unique-files collection of `get_checkpoint_state` -/

theorem ufF_time_key (T t : Int) (q : List Char) :
    (match splitn3 (time_key t q) with
      | [_, b, c] =>
        match parse_i64 b with
        | some ts => if ts ≤ T then some c else none
        | none => none
      | _ => none) = if t ≤ T then some q else none := by
  simp only [splitn3_time_key, parse_i64_decRep]

theorem ufF_data_key_tiChars (T t : Int) :
    (match splitn3 (data_key tiChars t) with
      | [_, b, c] =>
        match parse_i64 b with
        | some ts => if ts ≤ T then some c else none
        | none => none
      | _ => none) = (none : Option (List Char)) := by
  simp only [splitn3_data_key_tiChars]

theorem mem_unique_files {ops : List (List Char × List Nat × Int)} {T : Int}
    (hw : NoTiPaths ops) {q : List Char} :
    q ∈ ((scanPref tiColon (runSaves ops)).filterMap
        (fun kv =>
          match splitn3 kv.1 with
          | [_, b, c] =>
            match parse_i64 b with
            | some ts => if ts ≤ T then some c else none
            | none => none
          | _ => none)).dedup ↔
      ∃ c t, (q, c, t) ∈ ops ∧ t ≤ T := by
  rw [List.mem_dedup]
  constructor
  · intro h
    rcases List.mem_filterMap.mp h with ⟨kv, hkv, hF⟩
    rcases scanPref_mem.mp hkv with ⟨hdb, hpref⟩
    have hk : kv.1 ∈ dbKeys (runSaves ops) := mem_dbKeys_iff.mpr
      ⟨kv.2, by rwa [← Prod.mk.eta (p := kv)] at hdb⟩
    rcases index_key_shape hw hk hpref with ⟨q', c', t', hm, hkey⟩ | ⟨c', t', hm, hkey⟩
    · rw [hkey, ufF_time_key] at hF
      by_cases ht : t' ≤ T
      · rw [if_pos ht] at hF
        obtain rfl := Option.some_inj.mp hF
        exact ⟨c', t', hm, ht⟩
      · rw [if_neg ht] at hF
        simp at hF
    · rw [hkey, ufF_data_key_tiChars] at hF
      simp at hF
  · rintro ⟨c, t, hmem, ht⟩
    have hk : time_key t q ∈ dbKeys (runSaves ops) :=
      (mem_dbKeys_runSavesFrom [] _).mpr (Or.inr ⟨(q, c, t), hmem, Or.inr rfl⟩)
    obtain ⟨v, hv⟩ := mem_dbKeys_iff.mp hk
    refine List.mem_filterMap.mpr ⟨(time_key t q, v),
      scanPref_mem.mpr ⟨hv, isPref_tiColon_time_key t q⟩, ?_⟩
    rw [ufF_time_key, if_pos ht]

/-! ## Snapshot content of a reachable store -/

theorem content_unique {ops : List (List Char × List Nat × Int)}
    (hn : pairsNodup ops) {p : List Char} {c c' : List Nat} {t : Int}
    (h1 : (p, c, t) ∈ ops) (h2 : (p, c', t) ∈ ops) : c' = c := by
  have heq := List.inj_on_of_nodup_map hn h2 h1 (by rfl)
  injection heq with _ heq
  injection heq

theorem get_snapshot_runSaves {ops : List (List Char × List Nat × Int)}
    {p : List Char} {c : List Nat} {t : Int} (hp : colonFree p)
    (hn : pairsNodup ops) (hmem : (p, c, t) ∈ ops) :
    get_snapshot (runSaves ops) p t = Except.ok (some c) := by
  rw [get_snapshot, show runSaves ops = runSavesFrom [] ops from rfl,
    dbGet_data_key_runSavesFrom hp hmem (fun c' h => content_unique hn hmem h) []]
  simp [zstdDecode_zstdEncode]

/-! ## Claim theorems -/

/-- Claim C2: round-trip — after `save_snapshot(p, c)` succeeds with timestamp
`t`, `get_snapshot(p, t)` returns `Ok(Some c)`: the bytes coming back through
the compress/decompress cycle are exactly the bytes saved. -/
theorem claim_C2_roundtrip (db : Db) (p : List Char) (c : List Nat) (t : Int) :
    get_snapshot (save_snapshot db p c t) p t = Except.ok (some c) := by
  rw [get_snapshot, dbGet_save_self]
  simp [zstdDecode_zstdEncode]

/-- Claim C3: write atomicity and key-space pairing — every save's primary
data key and time-index key are present together in every reachable store
(each saved triple contributes both keys, and every key of a reachable store
is one of a saved triple's two keys, so neither kind of entry dangles), and a
`save_snapshot` whose two keys are fresh grows the store by exactly the two
entries of its atomic batch (a failed batch, modelled as the unchanged store,
adds neither). -/
theorem claim_C3_atomic_pairing :
    (∀ (ops : List (List Char × List Nat × Int)) p c t, (p, c, t) ∈ ops →
      data_key p t ∈ dbKeys (runSaves ops) ∧ time_key t p ∈ dbKeys (runSaves ops)) ∧
    (∀ (ops : List (List Char × List Nat × Int)) k, k ∈ dbKeys (runSaves ops) →
      ∃ p c t, (p, c, t) ∈ ops ∧ (k = data_key p t ∨ k = time_key t p)) ∧
    (∀ (db : Db) p c t, data_key p t ∉ dbKeys db → time_key t p ∉ dbKeys db →
      (save_snapshot db p c t).length = db.length + 2) := by
  refine ⟨?_, ?_, ?_⟩
  · intro ops p c t h
    exact ⟨(mem_dbKeys_runSavesFrom [] _).mpr (Or.inr ⟨(p, c, t), h, Or.inl rfl⟩),
           (mem_dbKeys_runSavesFrom [] _).mpr (Or.inr ⟨(p, c, t), h, Or.inr rfl⟩)⟩
  · intro ops k hk
    rcases (mem_dbKeys_runSavesFrom [] k).mp hk with h | ⟨o, ho, hc⟩
    · simp [dbKeys] at h
    · exact ⟨o.1, o.2.1, o.2.2, by simpa using ho, hc⟩
  · intro db p c t h1 h2
    have h3 : time_key t p ∉ dbKeys (dbInsert (data_key p t) (zstdEncode c) db) := by
      intro hmem
      rcases mem_dbKeys_dbInsert.mp hmem with h | h
      · exact data_key_ne_time_key_self p t t rfl h.symm
      · exact h2 h
    rw [save_snapshot_eq, length_dbInsert_of_not_mem h3,
      length_dbInsert_of_not_mem h1]

/-- Witness for C3 at a concrete store: one save from empty produces both
keys and exactly two entries. -/
theorem claim_C3_witness :
    data_key ['a'] 5 ∈ dbKeys (runSaves [(['a'], [7], 5)]) ∧
    time_key 5 ['a'] ∈ dbKeys (runSaves [(['a'], [7], 5)]) ∧
    (save_snapshot [] ['a'] [7] 5).length = ([] : Db).length + 2 :=
  ⟨(claim_C3_atomic_pairing.1 [(['a'], [7], 5)] ['a'] [7] 5 (by decide)).1,
   (claim_C3_atomic_pairing.1 [(['a'], [7], 5)] ['a'] [7] 5 (by decide)).2,
   claim_C3_atomic_pairing.2.2 [] ['a'] [7] 5 (by decide) (by decide)⟩

/-- Counterexample to claim C4 as stated: with timestamps of different decimal
widths the encoded keys do not sort chronologically — `2 < 10` numerically,
yet neither the primary keys `"a:2"`, `"a:10"` nor the index keys compare in
that order byte-wise (the code formats timestamps without zero-padding). -/
theorem claim_C4_cex :
    (2 : Int) < 10 ∧
    lexLtB (data_key ['a'] 2) (data_key ['a'] 10) = false ∧
    lexLtB (time_key 2 ['a']) (time_key 10 ['a']) = false := by decide

/-- Claim C4 amended: the key encoding is order-preserving exactly on
timestamps of equal decimal width — for nonnegative `t1 < t2` whose decimal
renderings have the same number of digits (e.g. any two epoch-millisecond
values of the assumed 13-digit era), both the primary keys and the time-index
keys compare strictly byte-wise in chronological order. -/
theorem claim_C4_amended (p : List Char) (t1 t2 : Int) (h0 : 0 ≤ t1)
    (h12 : t1 < t2) (hlen : (decRep t1).length = (decRep t2).length) :
    lexLtB (data_key p t1) (data_key p t2) = true ∧
    lexLtB (time_key t1 p) (time_key t2 p) = true := by
  have hd1 : decRep t1 = natChars t1.toNat := by
    simp [decRep, show ¬ t1 < 0 by omega]
  have hd2 : decRep t2 = natChars t2.toNat := by
    simp [decRep, show ¬ t2 < 0 by omega]
  have hvlt : valB (decRep t1) < valB (decRep t2) := by
    rw [hd1, hd2, valB_natChars, valB_natChars]
    omega
  have hdig1 : allDigits (decRep t1) := hd1 ▸ allDigits_natChars _
  have hdig2 : allDigits (decRep t2) := hd2 ▸ allDigits_natChars _
  have hlt : lexLtB (decRep t1) (decRep t2) = true :=
    lexLtB_of_valB_lt hdig1 hdig2 hlen hvlt
  constructor
  · rw [show data_key p t1 = (p ++ [':']) ++ decRep t1 from
      (append_colon_cons _ _).symm,
      show data_key p t2 = (p ++ [':']) ++ decRep t2 from
      (append_colon_cons _ _).symm,
      lexLtB_append_left]
    exact hlt
  · rw [show time_key t1 p = tiColon ++ (decRep t1 ++ ':' :: p) by
      simp [time_key, tiColon],
      show time_key t2 p = tiColon ++ (decRep t2 ++ ':' :: p) by
      simp [time_key, tiColon],
      lexLtB_append_left]
    exact lexLtB_append_of_lt _ _ hlen hlt

/-- Witness for the amended C4 at equal-width timestamps `10 < 12`. -/
theorem claim_C4_witness :
    (0 : Int) ≤ 10 ∧ (10 : Int) < 12 ∧
    (decRep 10).length = (decRep 12).length ∧
    lexLtB (data_key ['a'] 10) (data_key ['a'] 12) = true ∧
    lexLtB (time_key 10 ['a']) (time_key 12 ['a']) = true :=
  ⟨by decide, by decide, by decide,
   (claim_C4_amended ['a'] 10 12 (by decide) (by decide) (by decide)).1,
   (claim_C4_amended ['a'] 10 12 (by decide) (by decide) (by decide)).2⟩

/-- Counterexample to claim C7 as stated: a later `save_snapshot` of the same
path that obtains the same wall-clock millisecond reuses the same primary key
and silently replaces the stored blob, so the snapshot first saved at
`("a", 5)` (content `[1]`) is updated — `get_snapshot` then returns the later
content `[2]`, not the content first saved. -/
theorem claim_C7_cex :
    get_snapshot (runSaves [(['a'], [1], 5), (['a'], [2], 5)]) ['a'] 5 =
      Except.ok (some [2]) ∧ [2] ≠ ([1] : List Nat) :=
  ⟨rfl, by decide⟩

/-- Claim C7 amended: snapshot immutability holds for a separator-free path
provided no later save reuses the same `(path, timestamp)` key (guaranteed
when per-path timestamps strictly increase): any sequence of later saves
leaves `get_snapshot(p, t)` returning the content saved at `(p, t)`. -/
theorem claim_C7_immutable (db : Db) (p : List Char) (c : List Nat) (t : Int)
    (rest : List (List Char × List Nat × Int)) (hp : colonFree p)
    (hfresh : ∀ o ∈ rest, ¬ (o.1 = p ∧ o.2.2 = t)) :
    get_snapshot (runSavesFrom (save_snapshot db p c t) rest) p t =
      Except.ok (some c) := by
  rw [get_snapshot, dbGet_runSavesFrom_untouched ?hkeys _, dbGet_save_self]
  · simp [zstdDecode_zstdEncode]
  case hkeys =>
    intro o ho
    constructor
    · intro hh
      obtain ⟨h1, h2⟩ := data_key_inj hh
      exact hfresh o ho ⟨h1, h2⟩
    · exact (data_key_ne_time_key_of_colonFree hp t o.2.2 o.1).symm

/-- Witness for the amended C7: a later save of another file leaves the
earlier snapshot intact. -/
theorem claim_C7_witness :
    get_snapshot (runSavesFrom (save_snapshot [] ['a'] [7] 5)
      [(['b'], [9], 6)]) ['a'] 5 = Except.ok (some [7]) :=
  claim_C7_immutable [] ['a'] [7] 5 [(['b'], [9], 6)] (by decide) (by decide)

/-- Claim C10: checkpoint deduplication — for every store state (well formed
or not) and every target, each file path occurs at most once in
`get_checkpoint_state`'s result, because candidate files are deduplicated
before per-file selection and each candidate contributes at most one pair. -/
theorem claim_C10_dedup (db : Db) (T : Int) :
    ((get_checkpoint_state db T).map Prod.fst).Nodup := by
  simp only [get_checkpoint_state]
  refine map_fst_filterMap_self ?_ (List.nodup_dedup _)
  intro a x h
  rcases hf : (get_history db a).find? (fun s => decide (s.timestamp ≤ T)) with _ | snap
  · simp [hf] at h
  · simp only [hf] at h
    rcases hg : get_snapshot db a snap.timestamp with e | oc
    · simp [hg] at h
    · simp only [hg] at h
      rcases oc with _ | content
      · simp at h
      · obtain rfl := Option.some_inj.mp h
        rfl

/-- Counterexample to claim C5 as stated: saving only under path `"a:b"` makes
`get_history("a")` non-empty — the prefix scan over `"a:"` also matches
`"a:b"`'s primary key `"a:b:20"`-style keys and their trailing field parses,
so the history of `"a"` contains an entry derived from another file's
snapshot. -/
theorem claim_C5_cex :
    get_history (runSaves [(['a', ':', 'b'], [7], 5)]) ['a'] =
      [SnapshotInfo.mk 5 2] := by decide

/-- Claim C5 amended: per-file isolation of history holds under path
sanitization — when every saved path is separator-free and none is the index
token, `get_history(p)` has exactly one entry (by timestamp) for each snapshot
saved under `p` and no entry derived from any other path. -/
theorem claim_C5_isolation (ops : List (List Char × List Nat × Int))
    (p : List Char) (hs : SanePaths ops) (hp : colonFree p)
    (hpti : p ≠ tiChars) :
    ((get_history (runSaves ops) p).map (fun s => s.timestamp)).Nodup ∧
    (∀ t : Int, (∃ s ∈ get_history (runSaves ops) p, s.timestamp = t) ↔
      ∃ c, (p, c, t) ∈ ops) := by
  refine ⟨history_nodup_ts hs hp hpti, fun t => ⟨?_, ?_⟩⟩
  · rintro ⟨s, hsm, rfl⟩
    exact history_ts_saved hs hp hpti hsm
  · rintro ⟨c, hc⟩
    exact mem_history_of_saved hc

/-- Witness for the amended C5 at a concrete two-file store. -/
theorem claim_C5_witness :
    ∃ s ∈ get_history (runSaves [(['a'], [7], 5), (['b'], [8], 9)]) ['a'],
      s.timestamp = 5 :=
  ((claim_C5_isolation [(['a'], [7], 5), (['b'], [8], 9)] ['a']
    (by decide) (by decide) (by decide)).2 5).mpr ⟨[7], by decide⟩

/-! ## Value-independence of the scan paths (for corruption and malformed-key
claims) -/

theorem dbKeys_dbInsert_of_mem {k : List Char} {v : List Nat} :
    ∀ {db : Db}, k ∈ dbKeys db → dbKeys (dbInsert k v db) = dbKeys db := by
  intro db
  induction db with
  | nil => intro h; simp [dbKeys] at h
  | cons kv rest ih =>
    intro h
    obtain ⟨k0, v0⟩ := kv
    by_cases h1 : k = k0
    · subst h1
      simp [dbInsert, dbKeys]
    · simp only [dbKeys, List.map_cons, List.mem_cons] at h
      rcases h with h | h
      · exact absurd h h1
      · simp only [dbInsert, if_neg h1, dbKeys, List.map_cons]
        have h2 := ih h
        simp only [dbKeys] at h2
        rw [h2]

theorem scan_filterMap_keyOnly {β : Type} (F : (List Char × List Nat) → Option β)
    (hkey : ∀ kv kv' : List Char × List Nat, kv.1 = kv'.1 → F kv = F kv')
    (pr : List Char) :
    ∀ (l1 l2 : Db), l1.map Prod.fst = l2.map Prod.fst →
      (scanPref pr l1).filterMap F = (scanPref pr l2).filterMap F := by
  intro l1
  induction l1 with
  | nil =>
    intro l2 h
    rw [show l2 = [] from List.map_eq_nil_iff.mp h.symm]
  | cons kv1 r1 ih =>
    intro l2 h
    cases l2 with
    | nil => simp at h
    | cons kv2 r2 =>
      simp only [List.map_cons, List.cons.injEq] at h
      obtain ⟨hk, hr⟩ := h
      simp only [scanPref, List.filter_cons]
      rw [hk]
      by_cases hpref : isPref pr kv2.1 = true
      · simp only [hpref, if_pos, List.filterMap_cons]
        rw [hkey kv1 kv2 hk]
        cases F kv2 with
        | none =>
          have := ih r2 hr
          simpa only [scanPref] using this
        | some b =>
          have := ih r2 hr
          simp only [scanPref] at this
          rw [this]
      · simp only [hpref, if_neg, Bool.false_eq_true, not_false_eq_true]
        have := ih r2 hr
        simpa only [scanPref] using this

theorem filterMap_dbInsert_skip {β : Type}
    (F : (List Char × List Nat) → Option β) (pr : List Char)
    {k : List Char} (v : List Nat)
    (hF : ∀ v', F (k, v') = none) :
    ∀ (db : Db), (scanPref pr (dbInsert k v db)).filterMap F =
      (scanPref pr db).filterMap F := by
  intro db
  induction db with
  | nil =>
    simp only [dbInsert, scanPref, List.filter_cons, List.filter_nil]
    by_cases hpref : isPref pr k = true
    · simp [hpref, List.filterMap_cons, hF v]
    · simp [hpref]
  | cons kv rest ih =>
    obtain ⟨k0, v0⟩ := kv
    by_cases h1 : k = k0
    · subst h1
      simp only [dbInsert, if_pos rfl, scanPref, List.filter_cons]
      by_cases hpref : isPref pr k = true
      · simp [hpref, List.filterMap_cons, hF v, hF v0]
      · simp [hpref]
    · simp only [dbInsert, if_neg h1, scanPref, List.filter_cons]
      by_cases hpref : isPref pr k0 = true
      · simp only [hpref, if_pos, List.filterMap_cons]
        have := ih
        simp only [scanPref] at this
        rw [this]
      · simp only [hpref, if_neg, Bool.false_eq_true, not_false_eq_true]
        have := ih
        simpa only [scanPref] using this

/-- Counterexample to claim C8 as stated: corrupting the blob stored at
`("a", 5)` makes `get_snapshot` on that key fail, but the corrupted entry is
NOT dropped from the size-only listing paths — `get_history("a")` still lists
timestamp 5 (with the corrupted blob's size), because the listing never
decodes the value. -/
theorem claim_C8_cex :
    get_snapshot (dbInsert (data_key ['a'] 5) [9]
        (runSaves [(['a'], [7], 5)])) ['a'] 5 = Except.error () ∧
    (get_history (dbInsert (data_key ['a'] 5) [9]
        (runSaves [(['a'], [7], 5)])) ['a']).map (fun s => s.timestamp) = [5] :=
  ⟨rfl, by decide⟩

/-- Claim C8 amended: corrupting one stored blob makes the direct
`get_snapshot` on that exact key return an error, while `get_history` and
`get_global_timeline` still succeed unchanged — the listings (which never
decode blob contents) return the same timestamps and the same timeline,
including an entry for the corrupted key, rather than dropping it. -/
theorem claim_C8_corruption (db : Db) (p : List Char) (t : Int)
    (bad : List Nat) (hmem : data_key p t ∈ dbKeys db)
    (hbad : zstdDecode bad = none) :
    get_snapshot (dbInsert (data_key p t) bad db) p t = Except.error () ∧
    (∀ lim, get_global_timeline (dbInsert (data_key p t) bad db) lim =
      get_global_timeline db lim) ∧
    (∀ q ts, ts ∈ (get_history (dbInsert (data_key p t) bad db) q).map
        (fun s => s.timestamp) ↔
      ts ∈ (get_history db q).map (fun s => s.timestamp)) := by
  have hkeys : dbKeys (dbInsert (data_key p t) bad db) = dbKeys db :=
    dbKeys_dbInsert_of_mem hmem
  refine ⟨?_, ?_, ?_⟩
  · rw [get_snapshot, dbGet_dbInsert, if_pos rfl]
    simp [hbad]
  · intro lim
    simp only [get_global_timeline]
    rw [scan_filterMap_keyOnly
      (fun kv =>
        match splitn3 kv.1 with
        | [_, b, c] => (parse_i64 b).map (fun ts => (ts, c))
        | _ => none)
      (fun kv kv' h => by simp only [h]) tiColon _ db hkeys]
  · intro q ts
    have h1 : List.Perm
        ((get_history (dbInsert (data_key p t) bad db) q).map (fun s => s.timestamp))
        (((scanPref (q ++ [':']) (dbInsert (data_key p t) bad db)).filterMap
          (fun kv => (parse_i64 (lastField kv.1)).map
            (fun ts => SnapshotInfo.mk ts kv.2.length))).map (fun s => s.timestamp)) :=
      (List.perm_insertionSort _ _).map _
    have h2 : List.Perm
        ((get_history db q).map (fun s => s.timestamp))
        (((scanPref (q ++ [':']) db).filterMap
          (fun kv => (parse_i64 (lastField kv.1)).map
            (fun ts => SnapshotInfo.mk ts kv.2.length))).map (fun s => s.timestamp)) :=
      (List.perm_insertionSort _ _).map _
    rw [h1.mem_iff, h2.mem_iff, map_timestamp_filterMap, map_timestamp_filterMap,
      scan_filterMap_keyOnly (fun kv => parse_i64 (lastField kv.1))
        (fun kv kv' h => by simp only [h]) _ _ db hkeys]

/-- Witness for the amended C8 at a concrete corrupted store. -/
theorem claim_C8_witness :
    get_snapshot (dbInsert (data_key ['a'] 5) [9]
        (runSaves [(['a'], [7], 5), (['b'], [8], 9)])) ['a'] 5 =
      Except.error () ∧
    get_global_timeline (dbInsert (data_key ['a'] 5) [9]
        (runSaves [(['a'], [7], 5), (['b'], [8], 9)])) 10 =
      get_global_timeline (runSaves [(['a'], [7], 5), (['b'], [8], 9)]) 10 :=
  ⟨(claim_C8_corruption (runSaves [(['a'], [7], 5), (['b'], [8], 9)])
      ['a'] 5 [9] (by decide) (by decide)).1,
   (claim_C8_corruption (runSaves [(['a'], [7], 5), (['b'], [8], 9)])
      ['a'] 5 [9] (by decide) (by decide)).2.1 10⟩

/-- Claim C9: scan resilience — inserting an entry whose key decodes in
neither scan format (its trailing field does not parse as an integer, and if
it splits into three fields the middle one does not parse either) leaves
`get_history`, `get_global_timeline` and `get_checkpoint_state` entirely
unchanged: the malformed entry is silently skipped and no error is raised
(the operations stay total on such stores). -/
theorem claim_C9_malformed (db : Db) (k : List Char) (v : List Nat)
    (h1 : parse_i64 (lastField k) = none)
    (h2 : ∀ a b c2, splitn3 k = [a, b, c2] → parse_i64 b = none) :
    (∀ p, get_history (dbInsert k v db) p = get_history db p) ∧
    (∀ lim, get_global_timeline (dbInsert k v db) lim =
      get_global_timeline db lim) ∧
    (∀ T, get_checkpoint_state (dbInsert k v db) T =
      get_checkpoint_state db T) := by
  have hhist : ∀ p, get_history (dbInsert k v db) p = get_history db p := by
    intro p
    simp only [get_history]
    rw [filterMap_dbInsert_skip _ _ v (fun v' => by
      show (parse_i64 (lastField k)).map _ = none
      rw [h1]
      rfl) db]
  have hevF : (match splitn3 k with
      | [_, b, c] => (parse_i64 b).map (fun ts => ((ts : Int), c))
      | _ => none) = (none : Option (Int × List Char)) := by
    rcases hsp : splitn3 k with _ | ⟨a, _ | ⟨b, _ | ⟨c2, _ | ⟨d, tl⟩⟩⟩⟩ <;>
      try rfl
    show (parse_i64 b).map (fun ts => ((ts : Int), c2)) = none
    rw [h2 a b c2 hsp]
    rfl
  have hufF : ∀ T : Int, (match splitn3 k with
      | [_, b, c] =>
        match parse_i64 b with
        | some ts => if ts ≤ T then some c else none
        | none => none
      | _ => none) = (none : Option (List Char)) := by
    intro T
    rcases hsp : splitn3 k with _ | ⟨a, _ | ⟨b, _ | ⟨c2, _ | ⟨d, tl⟩⟩⟩⟩ <;>
      try rfl
    show (match parse_i64 b with
      | some ts => if ts ≤ T then some c2 else none
      | none => none) = (none : Option (List Char))
    rw [h2 a b c2 hsp]
  have hsnap : ∀ q ts, get_snapshot (dbInsert k v db) q ts = get_snapshot db q ts := by
    intro q ts
    have hne : ¬ data_key q ts = k := by
      intro hh
      rw [← hh, lastField_data_key, parse_i64_decRep] at h1
      exact Option.noConfusion h1
    rw [get_snapshot, get_snapshot, dbGet_dbInsert, if_neg hne]
  refine ⟨hhist, ?_, ?_⟩
  · intro lim
    simp only [get_global_timeline]
    rw [filterMap_dbInsert_skip _ _ v (fun v' => hevF) db]
  · intro T
    simp only [get_checkpoint_state]
    rw [filterMap_dbInsert_skip _ _ v (fun v' => hufF T) db]
    refine List.filterMap_congr ?_
    intro q hq
    rw [hhist q]
    generalize (get_history db q).find? (fun s => decide (s.timestamp ≤ T)) = r
    cases r with
    | none => rfl
    | some snap => simp only [hsnap]

/-- Witness for C9: a key with an unparsable timestamp field in both formats
changes nothing. -/
theorem claim_C9_witness :
    get_history (dbInsert ['a', ':', 'z'] [3] (runSaves [(['a'], [7], 5)])) ['a'] =
      get_history (runSaves [(['a'], [7], 5)]) ['a'] ∧
    get_global_timeline (dbInsert ['a', ':', 'z'] [3]
      (runSaves [(['a'], [7], 5)])) 10 =
      get_global_timeline (runSaves [(['a'], [7], 5)]) 10 ∧
    get_checkpoint_state (dbInsert ['a', ':', 'z'] [3]
      (runSaves [(['a'], [7], 5)])) 6 =
      get_checkpoint_state (runSaves [(['a'], [7], 5)]) 6 :=
  ⟨(claim_C9_malformed (runSaves [(['a'], [7], 5)]) ['a', ':', 'z'] [3]
      (by decide) (fun a b c2 h => by simp [splitn3, splitOnce] at h)).1 ['a'],
   (claim_C9_malformed (runSaves [(['a'], [7], 5)]) ['a', ':', 'z'] [3]
      (by decide) (fun a b c2 h => by simp [splitn3, splitOnce] at h)).2.1 10,
   (claim_C9_malformed (runSaves [(['a'], [7], 5)]) ['a', ':', 'z'] [3]
      (by decide) (fun a b c2 h => by simp [splitn3, splitOnce] at h)).2.2 6⟩

/-! ## Sorted-take facts and claims C6 and C1 -/

theorem sorted_take_facts {α : Type} (r : α → α → Prop) [DecidableRel r]
    [IsTotal α r] [IsTrans α r] (l other : List α) (k : Nat)
    (hperm : List.Perm l other) :
    ((List.insertionSort r l).take k).length = min k other.length ∧
    List.Pairwise r ((List.insertionSort r l).take k) ∧
    (∀ e ∈ (List.insertionSort r l).take k, e ∈ other) ∧
    (∀ e ∈ (List.insertionSort r l).take k, ∀ e' ∈ other,
      e' ∉ (List.insertionSort r l).take k → r e e') := by
  have hsp : List.Perm (List.insertionSort r l) l := List.perm_insertionSort r l
  have hsort : List.Pairwise r (List.insertionSort r l) :=
    List.sorted_insertionSort r l
  refine ⟨?_, hsort.sublist (List.take_sublist _ _), ?_, ?_⟩
  · rw [List.length_take, List.length_insertionSort, hperm.length_eq]
  · intro e he
    exact hperm.mem_iff.mp (hsp.mem_iff.mp ((List.take_sublist _ _).subset he))
  · intro e he e' he' hnot
    have he's : e' ∈ List.insertionSort r l :=
      hsp.mem_iff.mpr (hperm.mem_iff.mpr he')
    have hsplit : e' ∈ (List.insertionSort r l).take k ++
        (List.insertionSort r l).drop k := by
      rw [List.take_append_drop]
      exact he's
    rcases List.mem_append.mp hsplit with h | h
    · exact absurd h hnot
    · have hpw := hsort
      rw [← List.take_append_drop k (List.insertionSort r l)] at hpw
      exact (List.pairwise_append.mp hpw).2.2 e he e' h

theorem sane_noti {ops : List (List Char × List Nat × Int)}
    (hs : SanePaths ops) : NoTiPaths ops := by
  intro o ho
  cases hb : isPref tiColon o.1 with
  | false => rfl
  | true =>
    exfalso
    obtain ⟨c, hc⟩ := isPref_iff.mp hb
    have hmem : (':' : Char) ∈ o.1 := by
      rw [hc]
      exact List.mem_append_left _ (by decide)
    exact (hs o ho).1 ':' hmem rfl

/-- Claim C6: global timeline ordering and cap — under the spec's required
path sanitization (no saved path has the index token as leading segment),
`get_global_timeline(k)` returns exactly `min k n` entries where `n` is the
number of distinct `(timestamp, file_path)` pairs saved, sorted newest first;
every returned pair was saved, and every saved pair it omits is no newer than
any pair it returns — i.e. the result is exactly the `k` most recent pairs
(all of them, newest first, when fewer than `k` exist). -/
theorem claim_C6_timeline (ops : List (List Char × List Nat × Int)) (k : Nat)
    (hw : NoTiPaths ops) :
    (get_global_timeline (runSaves ops) k).length =
      min k ((ops.map (fun o => (o.2.2, o.1))).dedup.length) ∧
    List.Pairwise evGe (get_global_timeline (runSaves ops) k) ∧
    (∀ e ∈ get_global_timeline (runSaves ops) k,
      e ∈ (ops.map (fun o => (o.2.2, o.1))).dedup) ∧
    (∀ e ∈ get_global_timeline (runSaves ops) k,
      ∀ e' ∈ (ops.map (fun o => (o.2.2, o.1))).dedup,
        e' ∉ get_global_timeline (runSaves ops) k → e'.1 ≤ e.1) := by
  have hperm : List.Perm
      ((scanPref tiColon (runSaves ops)).filterMap
        (fun kv =>
          match splitn3 kv.1 with
          | [_, b, c] => (parse_i64 b).map (fun ts => (ts, c))
          | _ => none))
      ((ops.map (fun o => (o.2.2, o.1))).dedup) := by
    refine (List.perm_ext_iff_of_nodup (timeline_events_nodup hw)
      (List.nodup_dedup _)).mpr ?_
    intro e
    obtain ⟨t, q⟩ := e
    rw [mem_timeline_events hw, List.mem_dedup, List.mem_map]
    constructor
    · rintro ⟨c, hm⟩
      exact ⟨(q, c, t), hm, rfl⟩
    · rintro ⟨o, ho, heq⟩
      obtain ⟨q0, c0, t0⟩ := o
      simp only at heq
      obtain ⟨h1, h2⟩ := Prod.mk.injEq _ _ _ _ ▸ heq
      subst h1
      subst h2
      exact ⟨c0, ho⟩
  have hfacts := sorted_take_facts evGe _ _ k hperm
  simp only [get_global_timeline]
  exact hfacts

/-- Witness for C6 at a concrete two-file store with cap 1. -/
theorem claim_C6_witness :
    (get_global_timeline (runSaves [(['a'], [7], 5), (['b'], [8], 9)]) 1).length =
      min 1 (([(['a'], [7], 5), (['b'], [8], 9)].map
        (fun o => (o.2.2, o.1))).dedup.length) :=
  (claim_C6_timeline [(['a'], [7], 5), (['b'], [8], 9)] 1 (by decide)).1

/-- Counterexample to claim C1 as stated: with file `"a"` saved at `t = 10`
and file `"a:b"` saved at `t = 20`, `get_checkpoint_state(25)` omits `"a"`
entirely even though `"a"` has a snapshot at `10 ≤ 25` — the history scan of
`"a"` also picks up `"a:b"`'s key, selects the phantom timestamp 20, finds no
blob at key `"a:20"`, and silently drops the file. -/
theorem claim_C1_cex :
    (get_checkpoint_state (runSaves
      [(['a'], [7], 10), (['a', ':', 'b'], [8], 20)]) 25).map Prod.fst =
      [['a', ':', 'b']] := by decide

/-- Claim C1 amended: checkpoint reconstruction is correct under path
sanitization — when saved paths are separator-free, none is the index token,
and `(path, timestamp)` identifies saves uniquely, `get_checkpoint_state(T)`
contains `(p, c)` exactly when `c` is the content of `p`'s snapshot with the
largest timestamp not exceeding `T`; files whose snapshots all lie strictly
after `T` are omitted, and if nothing was saved at or before `T` the result
is empty. -/
theorem claim_C1_checkpoint (ops : List (List Char × List Nat × Int)) (T : Int)
    (hs : SanePaths ops) (hn : pairsNodup ops) :
    (∀ p c t, (p, c, t) ∈ ops → t ≤ T →
      (∀ c' t', (p, c', t') ∈ ops → t' ≤ T → t' ≤ t) →
      (p, c) ∈ get_checkpoint_state (runSaves ops) T) ∧
    (∀ p c, (p, c) ∈ get_checkpoint_state (runSaves ops) T →
      ∃ t, (p, c, t) ∈ ops ∧ t ≤ T ∧
        ∀ c' t', (p, c', t') ∈ ops → t' ≤ T → t' ≤ t) ∧
    ((∀ p c t, (p, c, t) ∈ ops → T < t) →
      get_checkpoint_state (runSaves ops) T = []) := by
  have hw : NoTiPaths ops := sane_noti hs
  have hB : ∀ p c, (p, c) ∈ get_checkpoint_state (runSaves ops) T →
      ∃ t, (p, c, t) ∈ ops ∧ t ≤ T ∧
        ∀ c' t', (p, c', t') ∈ ops → t' ≤ T → t' ≤ t := by
    intro p c hpc
    simp only [get_checkpoint_state] at hpc
    rcases List.mem_filterMap.mp hpc with ⟨q, hquf, hFq⟩
    rcases hfind : (get_history (runSaves ops) q).find?
        (fun s => decide (s.timestamp ≤ T)) with _ | s
    · simp [hfind] at hFq
    · simp only [hfind] at hFq
      rcases hget : get_snapshot (runSaves ops) q s.timestamp with e | oc
      · simp [hget] at hFq
      · simp only [hget] at hFq
        rcases oc with _ | content
        · simp at hFq
        · have hpair := Option.some_inj.mp hFq
          have hqp : q = p := congrArg Prod.fst hpair
          have hcc : content = c := congrArg Prod.snd hpair
          subst hqp
          subst hcc
          obtain ⟨c0, t0, hm0, _⟩ := (mem_unique_files hw).mp hquf
          have hp : colonFree q := (hs _ hm0).1
          have hpti : q ≠ tiChars := (hs _ hm0).2
          obtain ⟨hsmem, hsT, hsmax⟩ :=
            find_le_props (history_sorted (runSaves ops) q) hfind
          obtain ⟨c1, hc1⟩ := history_ts_saved hs hp hpti hsmem
          have hcontent : content = c1 := by
            have h1 := (get_snapshot_runSaves hp hn hc1).symm.trans hget
            injection h1 with h1
            injection h1 with h1
            exact h1.symm
          refine ⟨s.timestamp, hcontent ▸ hc1, hsT, ?_⟩
          intro c' t' hm' ht'
          obtain ⟨s', hs'm, hs'ts⟩ := mem_history_of_saved hm'
          have := hsmax s' hs'm (by rwa [hs'ts])
          rwa [hs'ts] at this
  refine ⟨?_, hB, ?_⟩
  · intro p c t hmem ht hmax
    have hp : colonFree p := (hs _ hmem).1
    have hpti : p ≠ tiChars := (hs _ hmem).2
    simp only [get_checkpoint_state]
    refine List.mem_filterMap.mpr ⟨p, (mem_unique_files hw).mpr ⟨c, t, hmem, ht⟩, ?_⟩
    obtain ⟨s, hfind⟩ := find_le_isSome (mem_history_of_saved hmem) ht
    obtain ⟨hsmem, hsT, hsmax⟩ :=
      find_le_props (history_sorted (runSaves ops) p) hfind
    obtain ⟨c0, hc0⟩ := history_ts_saved hs hp hpti hsmem
    have h1 : s.timestamp ≤ t := hmax c0 s.timestamp hc0 hsT
    have h2 : t ≤ s.timestamp := by
      obtain ⟨s', hs'm, hs'ts⟩ := mem_history_of_saved hmem
      have := hsmax s' hs'm (by rwa [hs'ts])
      rwa [hs'ts] at this
    have hts : s.timestamp = t := le_antisymm h1 h2
    simp only [hfind, hts, get_snapshot_runSaves hp hn hmem]
  · intro hall
    rw [List.eq_nil_iff_forall_not_mem]
    intro x hx
    obtain ⟨t0, hm, ht0, _⟩ := hB x.1 x.2 (by simpa using hx)
    exact absurd ht0 (not_le.mpr (hall _ _ _ hm))

/-- Witness for the amended C1: a two-file store at a cutoff between the two
saves — the older file's latest-at-or-before snapshot is returned. -/
theorem claim_C1_witness :
    (['a'], [7]) ∈ get_checkpoint_state
      (runSaves [(['a'], [7], 5), (['b'], [8], 9)]) 6 :=
  (claim_C1_checkpoint [(['a'], [7], 5), (['b'], [8], 9)] 6
    (by decide) (by decide)).1 ['a'] [7] 5 (by decide) (by decide)
    (by
      intro c' t' h ht
      rcases List.mem_cons.mp h with heq | h2
      · injection heq with _ heq
        injection heq with _ heq
        omega
      · rcases List.mem_cons.mp h2 with heq | h3
        · exfalso
          injection heq with heq _
          exact absurd heq (by decide)
        · simp at h3)

